import Mathlib

/-! Shallow embedding of `src/src/lib.rs` of typst-languagetool.
Text is modelled as `List Char` (Unicode scalar values); byte offsets are `Nat`
computed from `Char.utf8Size`.  Rust panics (slicing at a non-boundary byte
offset, or slicing with an inverted range) are modelled as `none` results. -/

/-- Total UTF-8 byte length of a character list, as Rust `str::len` counts it. -/
def utf8Len (cs : List Char) : Nat := (cs.map Char.utf8Size).sum

/-- The characters the scan stops at: Rust tests `matches!(c, '\n' | '\r')`. -/
def isStopChar (c : Char) : Bool := c = '\n' || c = '\r'

/-- Drop the first `n` bytes, Rust `text[n..]`; `none` models the panic when
`n` is not a character boundary of the text. -/
def dropBytes : List Char → Nat → Option (List Char)
  | cs, 0 => some cs
  | [], _ + 1 => none
  | c :: cs, n + 1 =>
    if c.utf8Size ≤ n + 1 then dropBytes cs (n + 1 - c.utf8Size) else none

/-- Keep the first `n` bytes, Rust `text[..n]`; `none` models the panic when
`n` is not a character boundary of the text. -/
def takeBytes : List Char → Nat → Option (List Char)
  | _, 0 => some []
  | [], _ + 1 => none
  | c :: cs, n + 1 =>
    if c.utf8Size ≤ n + 1 then (takeBytes cs (n + 1 - c.utf8Size)).map (c :: ·) else none

/-- Byte slice `text[a..b]`; `none` models the panic on an invalid range. -/
def sliceBytes (cs : List Char) (a b : Nat) : Option (List Char) :=
  (takeBytes cs b).bind (fun p => dropBytes p a)

/-- `StringCursor` of `lib.rs`: the borrowed text plus the cached
`(utf_8_index, char_index)` pair. -/
structure StringCursor where
  text : List Char
  utf_8_index : Nat
  char_index : Nat
deriving DecidableEq

/-- `StringCursor::new`. -/
def StringCursor.new (text : List Char) : StringCursor :=
  { text := text, utf_8_index := 0, char_index := 0 }

/-- The forward loop of `utf_8_offset` over the characters it may consume:
threads `(utf_8_index, char_index)`, and an early first component `some u`
models the `return Some(self.utf_8_index)` taken at a stop character. -/
def scanF (stop : Bool) : List Char → Nat → Nat → Option Nat × Nat × Nat
  | [], u, ci => (none, u, ci)
  | c :: cs, u, ci =>
    if stop && isStopChar c then (some u, u, ci)
    else scanF stop cs (u + c.utf8Size) (ci + 1)

/-- The backward loop of `utf_8_offset`, over the reversed prefix it may
consume; byte and character indices decrease. -/
def scanB (stop : Bool) : List Char → Nat → Nat → Option Nat × Nat × Nat
  | [], u, ci => (none, u, ci)
  | c :: cs, u, ci =>
    if stop && isStopChar c then (some u, u, ci)
    else scanB stop cs (u - c.utf8Size) (ci - 1)

/-- `StringCursor::utf_8_offset`.  `none` models the panic of slicing
`text[utf_8_index..]` or `text[..utf_8_index]` at a non-boundary; otherwise
`some (result, cursor)` pairs the returned `Option<usize>` with the mutated
cursor. -/
def StringCursor.utf_8_offset (s : StringCursor) (char_index : Nat)
    (stop_at_newline : Bool) : Option (Option Nat × StringCursor) :=
  if s.char_index < char_index then
    match dropBytes s.text s.utf_8_index with
    | none => none
    | some rest =>
      match scanF stop_at_newline (rest.take (char_index - s.char_index))
          s.utf_8_index s.char_index with
      | (some r, u, ci) => some (some r, { s with utf_8_index := u, char_index := ci })
      | (none, u, ci) =>
        some (if ci = char_index then some u else none,
          { s with utf_8_index := u, char_index := ci })
  else if char_index < s.char_index then
    match takeBytes s.text s.utf_8_index with
    | none => none
    | some pre =>
      match scanB stop_at_newline (pre.reverse.take (s.char_index - char_index))
          s.utf_8_index s.char_index with
      | (some r, u, ci) => some (some r, { s with utf_8_index := u, char_index := ci })
      | (none, u, ci) =>
        some (if ci = char_index then some u else none,
          { s with utf_8_index := u, char_index := ci })
  else
    some (some s.utf_8_index, s)

/-- Reachable-state invariant of a cursor: `char_index` counts characters and
`utf_8_index` is the encoded byte length of that character prefix. -/
def StringCursor.Wf (s : StringCursor) : Prop :=
  s.char_index ≤ s.text.length ∧ s.utf_8_index = utf8Len (s.text.take s.char_index)

instance (s : StringCursor) : Decidable s.Wf := by
  unfold StringCursor.Wf
  exact inferInstance

/-- `Position` of `lib.rs`. -/
structure Position where
  utf_8 : Nat
  line : Nat
  column : Nat
deriving DecidableEq

/-- `TextWithPosition` of `lib.rs`. -/
structure TextWithPosition where
  line : Nat
  column : Nat
  content : StringCursor
deriving DecidableEq

/-- `TextWithPosition::new`. -/
def TextWithPosition.new (content : List Char) : TextWithPosition :=
  { line := 0, column := 0, content := StringCursor.new content }

/-- `TextWithPosition::new_with_line`. -/
def TextWithPosition.new_with_line (content : List Char) (line : Nat) : TextWithPosition :=
  { line := line, column := 0, content := StringCursor.new content }

/-- One step of the forward replay loop of `get_position`: `'\n'` advances the
line and resets the column to 0, anything else advances the column. -/
def stepF (lc : Nat × Nat) (c : Char) : Nat × Nat :=
  if c = '\n' then (lc.1 + 1, 0) else (lc.1, lc.2 + 1)

/-- `TextWithPosition::get_position`.  The source tests `start < end` and then
`end > start`; the second test sits in the `else` of the first, so it can only
be reached when `end ≤ start` and never holds — and were it to hold,
`text[end..start]` with `end > start` is an inverted range and panics at once,
so that arm is `none`. -/
def TextWithPosition.get_position (t : TextWithPosition) (char_index : Nat)
    (stop_at_newline : Bool) : Option (Position × TextWithPosition) :=
  let start := t.content.utf_8_index
  match t.content.utf_8_offset char_index stop_at_newline with
  | none => none
  | some (res, content) =>
    let e := res.getD (utf8Len t.content.text)
    if start < e then
      match sliceBytes t.content.text start e with
      | none => none
      | some span =>
        let lc := span.foldl stepF (t.line, t.column)
        some ({ utf_8 := e, line := lc.1, column := lc.2 },
          { line := lc.1, column := lc.2, content := content })
    else if e > start then
      none
    else
      some ({ utf_8 := e, line := t.line, column := t.column },
        { line := t.line, column := t.column, content := content })

/-- `Suggestion` of `lib.rs`; `end_` stands for the Rust field `end`. -/
structure Suggestion where
  start : Nat
  end_ : Nat
  message : String
  replacements : List String
  rule_description : String
  rule_id : String
deriving DecidableEq

/-- `Diagnostic` of `lib.rs`; a `Range<usize>` is a pair of byte offsets. -/
structure Diagnostic where
  locations : List (Nat × Nat)
  message : String
  replacements : List String
  rule_description : String
  rule_id : String
deriving DecidableEq

/-- Modelled from the spec: `convert::Mapping` is not under `src/`; only the
call `mapping.location(suggestion, &source)` is visible here.  Per the spec the
Source Range Mapper resolves a Suggestion against the source to an ordered
sequence of zero, one, or several byte ranges, so a `Mapping` is modelled as
that resolution function. -/
structure Mapping where
  location : Suggestion → List Char → List (Nat × Nat)

/-- `FileCollector` of `lib.rs`. -/
structure FileCollector where
  source : List Char
  diagnostics : List Diagnostic

/-- `FileCollector::new`; the `world.source(file_id).unwrap()` lookup is an
external document-system call, so the constructor takes the looked-up source
text directly. -/
def FileCollector.new (source : List Char) : FileCollector :=
  { source := source, diagnostics := [] }

/-- `FileCollector::add`: map each suggestion to a `Diagnostic` through the
mapping, keep those whose location list is non-empty, append them. -/
def FileCollector.add (fc : FileCollector) (suggestions : List Suggestion)
    (mapping : Mapping) : FileCollector :=
  let diagnostics :=
    (suggestions.map (fun suggestion =>
      { locations := mapping.location suggestion fc.source
        message := suggestion.message
        replacements := suggestion.replacements
        rule_description := suggestion.rule_description
        rule_id := suggestion.rule_id : Diagnostic })).filter
      (fun diagnostic => !diagnostic.locations.isEmpty)
  { fc with diagnostics := fc.diagnostics ++ diagnostics }

/-- `FileCollector::finish`. -/
def FileCollector.finish (fc : FileCollector) : List Char × List Diagnostic :=
  (fc.source, fc.diagnostics)

/-- The crate build features gating the `cfg` arms of `LanguageTool::new`,
made explicit. -/
structure Features where
  bundle_jar : Bool
  extern_jar : Bool
  remote_server : Bool
deriving DecidableEq

/-- Modelled from the spec: the backend payloads (`jni::LanguageToolJNI`,
`remote::LanguageToolRemote`) live in the `backends` module, which is not under
`src/`; per the spec only configuration errors arise at Dispatcher
construction, so the variants carry no failing payload. -/
inductive LanguageTool where
  | JNI : LanguageTool
  | Remote : LanguageTool
deriving DecidableEq

/-- `LanguageTool::new`, the `cfg`-gated match arms decided by `Features`.
Error strings follow the source, with the quoting dropped. -/
def LanguageTool.new (f : Features) (bundled : Bool)
    (jar_location host port : Option String) : Except String LanguageTool :=
  match bundled, jar_location, host, port with
  | false, none, some _, some _ =>
    if f.remote_server then .ok .Remote
    else .error ("Feature remote-server is disabled.")
  | true, none, none, none =>
    if f.bundle_jar then .ok .JNI
    else .error ("Feature bundle-jar is disabled.")
  | false, some _, none, none =>
    if f.bundle_jar || f.extern_jar then .ok .JNI
    else .error ("Features bundle-jar and extern-jar are disabled.")
  | _, _, _, _ =>
    .error ("Exactly one of bundled, jar_location or host and port must be specified.")

/-- A sample suggestion, used to instantiate theorems at concrete inputs. -/
def sugExample : Suggestion :=
  { start := 0, end_ := 1, message := "m", replacements := [],
    rule_description := "d", rule_id := "r" }

/-- The mapping that resolves every suggestion to no source range. -/
def emptyMapping : Mapping :=
  { location := fun _ _ => [] }

/-! ### Helper lemmas about byte lengths, byte slicing and the scan loops -/

theorem utf8Len_nil : utf8Len [] = 0 := rfl

theorem utf8Len_cons (c : Char) (cs : List Char) :
    utf8Len (c :: cs) = c.utf8Size + utf8Len cs := by
  simp [utf8Len]

theorem utf8Len_append (a b : List Char) :
    utf8Len (a ++ b) = utf8Len a + utf8Len b := by
  simp [utf8Len]

theorem utf8Len_reverse (a : List Char) : utf8Len a.reverse = utf8Len a := by
  simp [utf8Len, List.sum_reverse]


theorem dropBytes_utf8Len_take (cs : List Char) (k : Nat) (h : k ≤ cs.length) :
    dropBytes cs (utf8Len (cs.take k)) = some (cs.drop k) := by
  induction cs generalizing k with
  | nil =>
    have : k = 0 := by simpa using h
    simp [this, dropBytes, utf8Len_nil]
  | cons c cs ih =>
    cases k with
    | zero => simp [dropBytes, utf8Len_nil]
    | succ k =>
      have hk : k ≤ cs.length := by simpa using h
      rw [List.take_succ_cons, utf8Len_cons]
      have hpos : c.utf8Size + utf8Len (List.take k cs) ≠ 0 := by
        have := c.utf8Size_pos
        omega
      obtain ⟨m, hm⟩ := Nat.exists_eq_succ_of_ne_zero hpos
      rw [hm]
      have hle : c.utf8Size ≤ m + 1 := by omega
      have hrest : m + 1 - c.utf8Size = utf8Len (List.take k cs) := by omega
      simp only [dropBytes, hle, if_true, hrest, ih k hk, List.drop_succ_cons]

theorem takeBytes_utf8Len_take (cs : List Char) (k : Nat) (h : k ≤ cs.length) :
    takeBytes cs (utf8Len (cs.take k)) = some (cs.take k) := by
  induction cs generalizing k with
  | nil =>
    have : k = 0 := by simpa using h
    simp [this, takeBytes, utf8Len_nil]
  | cons c cs ih =>
    cases k with
    | zero => simp [takeBytes, utf8Len_nil]
    | succ k =>
      have hk : k ≤ cs.length := by simpa using h
      rw [List.take_succ_cons, utf8Len_cons]
      have hpos : c.utf8Size + utf8Len (List.take k cs) ≠ 0 := by
        have := c.utf8Size_pos
        omega
      obtain ⟨m, hm⟩ := Nat.exists_eq_succ_of_ne_zero hpos
      rw [hm]
      have hle : c.utf8Size ≤ m + 1 := by omega
      have hrest : m + 1 - c.utf8Size = utf8Len (List.take k cs) := by omega
      simp only [takeBytes, hle, if_true, hrest, ih k hk]
      rfl

theorem scanF_false (cs : List Char) (u ci : Nat) :
    scanF false cs u ci = (none, u + utf8Len cs, ci + cs.length) := by
  induction cs generalizing u ci with
  | nil => simp [scanF, utf8Len_nil]
  | cons c cs ih =>
    have h1 : scanF false (c :: cs) u ci = scanF false cs (u + c.utf8Size) (ci + 1) := by
      simp [scanF]
    rw [h1, ih, utf8Len_cons, List.length_cons]
    simp only [Prod.mk.injEq]
    refine ⟨trivial, by omega, by omega⟩

theorem scanF_clean (cs : List Char) (u ci : Nat)
    (h : ∀ a ∈ cs, isStopChar a = false) :
    scanF true cs u ci = (none, u + utf8Len cs, ci + cs.length) := by
  induction cs generalizing u ci with
  | nil => simp [scanF, utf8Len_nil]
  | cons c cs ih =>
    have hc : isStopChar c = false := h c (by simp)
    have h1 : scanF true (c :: cs) u ci = scanF true cs (u + c.utf8Size) (ci + 1) := by
      simp [scanF, hc]
    rw [h1, ih _ _ (fun a ha => h a (by simp [ha])), utf8Len_cons, List.length_cons]
    simp only [Prod.mk.injEq]
    refine ⟨trivial, by omega, by omega⟩

theorem scanF_stop (pre : List Char) (c : Char) (rest : List Char) (u ci : Nat)
    (hpre : ∀ a ∈ pre, isStopChar a = false) (hc : isStopChar c = true) :
    scanF true (pre ++ c :: rest) u ci =
      (some (u + utf8Len pre), u + utf8Len pre, ci + pre.length) := by
  induction pre generalizing u ci with
  | nil => simp [scanF, hc, utf8Len_nil]
  | cons a pre ih =>
    have ha : isStopChar a = false := hpre a (by simp)
    have h1 : scanF true ((a :: pre) ++ c :: rest) u ci
        = scanF true (pre ++ c :: rest) (u + a.utf8Size) (ci + 1) := by
      simp [scanF, ha]
    rw [h1, ih _ _ (fun x hx => hpre x (by simp [hx])), utf8Len_cons, List.length_cons]
    simp only [Prod.mk.injEq, Option.some.injEq]
    refine ⟨by omega, by omega, by omega⟩

theorem scanB_false (cs : List Char) (u ci : Nat) :
    scanB false cs u ci = (none, u - utf8Len cs, ci - cs.length) := by
  induction cs generalizing u ci with
  | nil => simp [scanB, utf8Len_nil]
  | cons c cs ih =>
    have h1 : scanB false (c :: cs) u ci = scanB false cs (u - c.utf8Size) (ci - 1) := by
      simp [scanB]
    rw [h1, ih, utf8Len_cons, List.length_cons]
    simp only [Prod.mk.injEq]
    refine ⟨trivial, by omega, by omega⟩

theorem scanB_clean (cs : List Char) (u ci : Nat)
    (h : ∀ a ∈ cs, isStopChar a = false) :
    scanB true cs u ci = (none, u - utf8Len cs, ci - cs.length) := by
  induction cs generalizing u ci with
  | nil => simp [scanB, utf8Len_nil]
  | cons c cs ih =>
    have hc : isStopChar c = false := h c (by simp)
    have h1 : scanB true (c :: cs) u ci = scanB true cs (u - c.utf8Size) (ci - 1) := by
      simp [scanB, hc]
    rw [h1, ih _ _ (fun a ha => h a (by simp [ha])), utf8Len_cons, List.length_cons]
    simp only [Prod.mk.injEq]
    refine ⟨trivial, by omega, by omega⟩

theorem scanB_stop (pre : List Char) (c : Char) (rest : List Char) (u ci : Nat)
    (hpre : ∀ a ∈ pre, isStopChar a = false) (hc : isStopChar c = true) :
    scanB true (pre ++ c :: rest) u ci =
      (some (u - utf8Len pre), u - utf8Len pre, ci - pre.length) := by
  induction pre generalizing u ci with
  | nil => simp [scanB, hc, utf8Len_nil]
  | cons a pre ih =>
    have ha : isStopChar a = false := hpre a (by simp)
    have h1 : scanB true ((a :: pre) ++ c :: rest) u ci
        = scanB true (pre ++ c :: rest) (u - a.utf8Size) (ci - 1) := by
      simp [scanB, ha]
    rw [h1, ih _ _ (fun x hx => hpre x (by simp [hx])), utf8Len_cons, List.length_cons]
    simp only [Prod.mk.injEq, Option.some.injEq]
    refine ⟨by omega, by omega, by omega⟩

theorem revspan_eq (cs : List Char) (ci t : Nat) (hci : ci ≤ cs.length) (ht : t ≤ ci) :
    (cs.take ci).reverse.take (ci - t) = ((cs.take ci).drop t).reverse := by
  rw [List.take_reverse]
  congr 2
  rw [List.length_take]
  omega

theorem utf8Len_take_sub (cs : List Char) (ci t : Nat) (ht : t ≤ ci) :
    utf8Len (cs.take ci) = utf8Len (cs.take t) + utf8Len ((cs.take ci).drop t) := by
  conv_lhs => rw [← List.take_append_drop t (cs.take ci)]
  rw [utf8Len_append, List.take_take, Nat.min_eq_left ht]

theorem utf8Len_take_split (cs : List Char) (ci t : Nat) (hlt : ci ≤ t) :
    utf8Len (cs.take t) =
      utf8Len (cs.take ci) + utf8Len ((cs.drop ci).take (t - ci)) := by
  have h : ci + (t - ci) = t := by omega
  rw [← utf8Len_append, ← List.take_add, h]

theorem utf_8_offset_false_in (s : StringCursor) (t : Nat) (h : s.Wf)
    (ht : t ≤ s.text.length) :
    s.utf_8_offset t false = some (some (utf8Len (s.text.take t)),
      { text := s.text, utf_8_index := utf8Len (s.text.take t), char_index := t }) := by
  obtain ⟨hle, hu⟩ := h
  rcases Nat.lt_trichotomy s.char_index t with hlt | heq | hgt
  · unfold StringCursor.utf_8_offset
    rw [if_pos hlt, hu, dropBytes_utf8Len_take s.text s.char_index hle]
    dsimp only
    rw [scanF_false]
    have hlen : ((s.text.drop s.char_index).take (t - s.char_index)).length
        = t - s.char_index := by
      rw [List.length_take, List.length_drop]
      omega
    have hci : s.char_index + ((s.text.drop s.char_index).take (t - s.char_index)).length
        = t := by
      rw [hlen]
      omega
    have hu2 : utf8Len (s.text.take s.char_index)
        + utf8Len ((s.text.drop s.char_index).take (t - s.char_index))
        = utf8Len (s.text.take t) :=
      (utf8Len_take_split s.text s.char_index t (by omega)).symm
    simp only [hci, hu2]
    simp
  · unfold StringCursor.utf_8_offset
    rw [if_neg (by omega), if_neg (by omega)]
    rw [heq] at hu
    simp only [Option.some.injEq, Prod.mk.injEq]
    refine ⟨by rw [hu], ?_⟩
    cases s
    simp_all
  · unfold StringCursor.utf_8_offset
    rw [if_neg (by omega), if_pos hgt, hu,
      takeBytes_utf8Len_take s.text s.char_index hle]
    dsimp only
    rw [scanB_false]
    have hrev : (s.text.take s.char_index).reverse.take (s.char_index - t)
        = ((s.text.take s.char_index).drop t).reverse :=
      revspan_eq s.text s.char_index t hle (by omega)
    have hlen : ((s.text.take s.char_index).reverse.take (s.char_index - t)).length
        = s.char_index - t := by
      rw [List.length_take, List.length_reverse, List.length_take]
      omega
    have hci : s.char_index
        - ((s.text.take s.char_index).reverse.take (s.char_index - t)).length = t := by
      rw [hlen]
      omega
    have hsub : utf8Len (s.text.take s.char_index)
        - utf8Len ((s.text.take s.char_index).reverse.take (s.char_index - t))
        = utf8Len (s.text.take t) := by
      rw [hrev, utf8Len_reverse]
      have := utf8Len_take_sub s.text s.char_index t (by omega)
      omega
    simp only [hci, hsub]
    simp

theorem utf_8_offset_false_out (s : StringCursor) (t : Nat) (h : s.Wf)
    (ht : s.text.length < t) :
    s.utf_8_offset t false = some (none,
      { text := s.text, utf_8_index := utf8Len s.text,
        char_index := s.text.length }) := by
  obtain ⟨hle, hu⟩ := h
  have hlt : s.char_index < t := by omega
  unfold StringCursor.utf_8_offset
  rw [if_pos hlt, hu, dropBytes_utf8Len_take s.text s.char_index hle]
  dsimp only
  rw [scanF_false]
  have htake : (s.text.drop s.char_index).take (t - s.char_index)
      = s.text.drop s.char_index := by
    apply List.take_of_length_le
    rw [List.length_drop]
    omega
  have hci : s.char_index + (s.text.drop s.char_index).length = s.text.length := by
    rw [List.length_drop]
    omega
  have hu2 : utf8Len (s.text.take s.char_index) + utf8Len (s.text.drop s.char_index)
      = utf8Len s.text := by
    rw [← utf8Len_append, List.take_append_drop]
  simp only [htake, hci, hu2]
  rw [if_neg (show ¬s.text.length = t by omega)]

theorem utf_8_offset_forward_clean (s : StringCursor) (t : Nat) (h : s.Wf)
    (hlt : s.char_index < t)
    (hclean : ∀ a ∈ (s.text.drop s.char_index).take (t - s.char_index),
      isStopChar a = false) :
    s.utf_8_offset t true = s.utf_8_offset t false := by
  obtain ⟨hle, hu⟩ := h
  unfold StringCursor.utf_8_offset
  rw [if_pos hlt, hu, dropBytes_utf8Len_take s.text s.char_index hle]
  dsimp only
  rw [scanF_clean _ _ _ hclean, scanF_false, if_pos hlt]

theorem utf_8_offset_backward_clean (s : StringCursor) (t : Nat) (h : s.Wf)
    (hgt : t < s.char_index)
    (hclean : ∀ a ∈ (s.text.take s.char_index).reverse.take (s.char_index - t),
      isStopChar a = false) :
    s.utf_8_offset t true = s.utf_8_offset t false := by
  obtain ⟨hle, hu⟩ := h
  unfold StringCursor.utf_8_offset
  rw [if_neg (by omega), if_pos hgt, hu, takeBytes_utf8Len_take s.text s.char_index hle]
  dsimp only
  rw [scanB_clean _ _ _ hclean, scanB_false,
    if_neg (show ¬s.char_index < t by omega), if_pos hgt]

theorem utf_8_offset_forward_stop (s : StringCursor) (t : Nat) (pre : List Char)
    (c : Char) (rest : List Char) (h : s.Wf) (hlt : s.char_index < t)
    (hspan : (s.text.drop s.char_index).take (t - s.char_index) = pre ++ c :: rest)
    (hpre : ∀ a ∈ pre, isStopChar a = false) (hc : isStopChar c = true) :
    s.utf_8_offset t true = some (some (s.utf_8_index + utf8Len pre),
      { text := s.text, utf_8_index := s.utf_8_index + utf8Len pre,
        char_index := s.char_index + pre.length }) := by
  obtain ⟨hle, hu⟩ := h
  rw [hu]
  unfold StringCursor.utf_8_offset
  rw [if_pos hlt, hu, dropBytes_utf8Len_take s.text s.char_index hle]
  dsimp only
  rw [hspan, scanF_stop pre c rest _ _ hpre hc]

theorem utf_8_offset_backward_stop (s : StringCursor) (t : Nat) (pre : List Char)
    (c : Char) (rest : List Char) (h : s.Wf) (hgt : t < s.char_index)
    (hspan : (s.text.take s.char_index).reverse.take (s.char_index - t)
      = pre ++ c :: rest)
    (hpre : ∀ a ∈ pre, isStopChar a = false) (hc : isStopChar c = true) :
    s.utf_8_offset t true = some (some (s.utf_8_index - utf8Len pre),
      { text := s.text, utf_8_index := s.utf_8_index - utf8Len pre,
        char_index := s.char_index - pre.length }) := by
  obtain ⟨hle, hu⟩ := h
  rw [hu]
  unfold StringCursor.utf_8_offset
  rw [if_neg (by omega), if_pos hgt, hu, takeBytes_utf8Len_take s.text s.char_index hle]
  dsimp only
  rw [hspan, scanB_stop pre c rest _ _ hpre hc]

theorem forward_stop_state (s : StringCursor) (t : Nat) (pre : List Char)
    (c : Char) (rest : List Char) (h : s.Wf) (hlt : s.char_index < t)
    (hspan : (s.text.drop s.char_index).take (t - s.char_index) = pre ++ c :: rest) :
    s.char_index + pre.length < t ∧ s.char_index + pre.length < s.text.length ∧
      s.utf_8_index + utf8Len pre
        = utf8Len (s.text.take (s.char_index + pre.length)) ∧
      s.text.drop (s.char_index + pre.length) = c :: (rest ++ s.text.drop t) := by
  obtain ⟨hle, hu⟩ := h
  have hlensp : ((s.text.drop s.char_index).take (t - s.char_index)).length
      = min (t - s.char_index) (s.text.length - s.char_index) := by
    rw [List.length_take, List.length_drop]
  have hlen2 : (pre ++ c :: rest).length = pre.length + (rest.length + 1) := by
    simp
  rw [hspan, hlen2] at hlensp
  have hdropci : s.text.drop s.char_index
      = (pre ++ c :: rest) ++ s.text.drop t := by
    conv_lhs => rw [← List.take_append_drop (t - s.char_index) (s.text.drop s.char_index)]
    rw [hspan, List.drop_drop]
    have harith : s.char_index + (t - s.char_index) = t := by omega
    rw [harith]
  refine ⟨by omega, by omega, ?_, ?_⟩
  · rw [hu, ← utf8Len_append]
    congr 1
    rw [List.take_add]
    congr 1
    rw [hdropci, List.append_assoc, List.take_left]
  · rw [← List.drop_drop, hdropci, List.append_assoc, List.drop_left]
    simp

theorem backward_stop_state (s : StringCursor) (t : Nat) (pre : List Char)
    (c : Char) (rest : List Char) (h : s.Wf) (hgt : t < s.char_index)
    (hspan : (s.text.take s.char_index).reverse.take (s.char_index - t)
      = pre ++ c :: rest) :
    t < s.char_index - pre.length ∧
      s.utf_8_index - utf8Len pre
        = utf8Len (s.text.take (s.char_index - pre.length)) ∧
      utf8Len (s.text.take t) < s.utf_8_index - utf8Len pre ∧
      (s.text.take (s.char_index - pre.length)).reverse
        = c :: (rest ++ (s.text.take t).reverse) := by
  obtain ⟨hle, hu⟩ := h
  have hD : (s.text.take s.char_index).drop t = rest.reverse ++ c :: pre.reverse := by
    have h1 := revspan_eq s.text s.char_index t hle (le_of_lt hgt)
    rw [hspan] at h1
    have h2 := congrArg List.reverse h1
    simp only [List.reverse_reverse] at h2
    rw [← h2]
    simp [List.reverse_append]
  have htakeci : s.text.take s.char_index
      = (s.text.take t ++ rest.reverse ++ [c]) ++ pre.reverse := by
    conv_lhs => rw [← List.take_append_drop t (s.text.take s.char_index)]
    rw [List.take_take, Nat.min_eq_left (le_of_lt hgt), hD]
    simp [List.append_assoc]
  have hlens : s.char_index = t + (rest.length + 1 + pre.length) := by
    have hl := congrArg List.length htakeci
    simp only [List.length_take, List.length_append, List.length_reverse,
      List.length_cons, List.length_nil] at hl
    omega
  have h2 : s.text.take (s.char_index - pre.length)
      = (s.text.take s.char_index).take (s.char_index - pre.length) := by
    rw [List.take_take, Nat.min_eq_left (by omega : s.char_index - pre.length ≤ s.char_index)]
  have hkey : s.text.take (s.char_index - pre.length)
      = s.text.take t ++ rest.reverse ++ [c] := by
    rw [h2, htakeci]
    apply List.take_left'
    simp only [List.length_append, List.length_reverse, List.length_cons,
      List.length_nil, List.length_take]
    omega
  have e1 : utf8Len (s.text.take s.char_index)
      = utf8Len (s.text.take t) + utf8Len rest + c.utf8Size + utf8Len pre := by
    rw [htakeci]
    simp only [utf8Len_append, utf8Len_reverse, utf8Len_cons, utf8Len_nil]
    omega
  have e2 : utf8Len (s.text.take (s.char_index - pre.length))
      = utf8Len (s.text.take t) + utf8Len rest + c.utf8Size := by
    rw [hkey]
    simp only [utf8Len_append, utf8Len_reverse, utf8Len_cons, utf8Len_nil]
    omega
  have hcpos := c.utf8Size_pos
  refine ⟨by omega, by omega, by omega, ?_⟩
  rw [hkey]
  simp [List.reverse_append]

theorem dropWhile_head_false {p : Char → Bool} (l : List Char) (c : Char)
    (cs : List Char) (h : l.dropWhile p = c :: cs) : p c = false := by
  induction l with
  | nil => simp at h
  | cons a l ih =>
    by_cases ha : p a
    · rw [List.dropWhile_cons_of_pos ha] at h
      exact ih h
    · rw [List.dropWhile_cons_of_neg ha] at h
      obtain ⟨rfl, -⟩ := List.cons.inj h
      simpa using ha

theorem utf_8_offset_self (s : StringCursor) (t : Nat) (b : Bool)
    (heq : s.char_index = t) : s.utf_8_offset t b = some (some s.utf_8_index, s) := by
  unfold StringCursor.utf_8_offset
  rw [if_neg (by omega), if_neg (by omega)]

theorem utf_8_offset_wf_false (s : StringCursor) (t : Nat) (r : Option Nat)
    (s2 : StringCursor) (h : s.Wf) (hcall : s.utf_8_offset t false = some (r, s2)) :
    s2.Wf ∧ s2.text = s.text := by
  by_cases htl : t ≤ s.text.length
  · rw [utf_8_offset_false_in s t h htl] at hcall
    simp only [Option.some.injEq, Prod.mk.injEq] at hcall
    obtain ⟨-, rfl⟩ := hcall
    exact ⟨⟨htl, rfl⟩, rfl⟩
  · rw [utf_8_offset_false_out s t h (by omega)] at hcall
    simp only [Option.some.injEq, Prod.mk.injEq] at hcall
    obtain ⟨-, rfl⟩ := hcall
    refine ⟨⟨le_refl _, ?_⟩, rfl⟩
    rw [List.take_length]

theorem utf_8_offset_wf (s : StringCursor) (t : Nat) (b : Bool) (r : Option Nat)
    (s2 : StringCursor) (h : s.Wf) (hcall : s.utf_8_offset t b = some (r, s2)) :
    s2.Wf ∧ s2.text = s.text := by
  cases b with
  | false => exact utf_8_offset_wf_false s t r s2 h hcall
  | true =>
    rcases Nat.lt_trichotomy s.char_index t with hlt | heq | hgt
    · cases hsplit : ((s.text.drop s.char_index).take (t - s.char_index)).dropWhile
          (fun a => !isStopChar a) with
      | nil =>
        have hclean : ∀ a ∈ (s.text.drop s.char_index).take (t - s.char_index),
            isStopChar a = false := by
          intro a ha
          have hsp := List.takeWhile_append_dropWhile (fun a => !isStopChar a)
            ((s.text.drop s.char_index).take (t - s.char_index))
          rw [hsplit, List.append_nil] at hsp
          rw [← hsp] at ha
          simpa using List.mem_takeWhile_imp ha
        rw [utf_8_offset_forward_clean s t h hlt hclean] at hcall
        exact utf_8_offset_wf_false s t r s2 h hcall
      | cons c rest =>
        have hspan : (s.text.drop s.char_index).take (t - s.char_index)
            = ((s.text.drop s.char_index).take (t - s.char_index)).takeWhile
                (fun a => !isStopChar a) ++ c :: rest := by
          conv_lhs => rw [← List.takeWhile_append_dropWhile (fun a => !isStopChar a)
            ((s.text.drop s.char_index).take (t - s.char_index))]
          rw [hsplit]
        have hpre : ∀ a ∈ ((s.text.drop s.char_index).take (t - s.char_index)).takeWhile
            (fun a => !isStopChar a), isStopChar a = false := by
          intro a ha
          simpa using List.mem_takeWhile_imp ha
        have hc : isStopChar c = true := by
          simpa using dropWhile_head_false _ c rest hsplit
        rw [utf_8_offset_forward_stop s t _ c rest h hlt hspan hpre hc] at hcall
        simp only [Option.some.injEq, Prod.mk.injEq] at hcall
        obtain ⟨-, rfl⟩ := hcall
        obtain ⟨h1, h2, h3, -⟩ := forward_stop_state s t _ c rest h hlt hspan
        exact ⟨⟨by dsimp only; omega, h3⟩, rfl⟩
    · rw [utf_8_offset_self s t true heq] at hcall
      simp only [Option.some.injEq, Prod.mk.injEq] at hcall
      obtain ⟨-, rfl⟩ := hcall
      exact ⟨h, rfl⟩
    · cases hsplit : ((s.text.take s.char_index).reverse.take
          (s.char_index - t)).dropWhile (fun a => !isStopChar a) with
      | nil =>
        have hclean : ∀ a ∈ (s.text.take s.char_index).reverse.take (s.char_index - t),
            isStopChar a = false := by
          intro a ha
          have hsp := List.takeWhile_append_dropWhile (fun a => !isStopChar a)
            ((s.text.take s.char_index).reverse.take (s.char_index - t))
          rw [hsplit, List.append_nil] at hsp
          rw [← hsp] at ha
          simpa using List.mem_takeWhile_imp ha
        rw [utf_8_offset_backward_clean s t h hgt hclean] at hcall
        exact utf_8_offset_wf_false s t r s2 h hcall
      | cons c rest =>
        have hspan : (s.text.take s.char_index).reverse.take (s.char_index - t)
            = ((s.text.take s.char_index).reverse.take (s.char_index - t)).takeWhile
                (fun a => !isStopChar a) ++ c :: rest := by
          conv_lhs => rw [← List.takeWhile_append_dropWhile (fun a => !isStopChar a)
            ((s.text.take s.char_index).reverse.take (s.char_index - t))]
          rw [hsplit]
        have hpre : ∀ a ∈ ((s.text.take s.char_index).reverse.take
            (s.char_index - t)).takeWhile (fun a => !isStopChar a),
            isStopChar a = false := by
          intro a ha
          simpa using List.mem_takeWhile_imp ha
        have hc : isStopChar c = true := by
          simpa using dropWhile_head_false _ c rest hsplit
        rw [utf_8_offset_backward_stop s t _ c rest h hgt hspan hpre hc] at hcall
        simp only [Option.some.injEq, Prod.mk.injEq] at hcall
        obtain ⟨-, rfl⟩ := hcall
        obtain ⟨h1, h2, -, -⟩ := backward_stop_state s t _ c rest h hgt hspan
        have hle := h.1
        exact ⟨⟨by dsimp only; omega, h2⟩, rfl⟩

theorem utf_8_offset_idem_false (s : StringCursor) (t : Nat) (r : Option Nat)
    (s2 : StringCursor) (h : s.Wf) (hcall : s.utf_8_offset t false = some (r, s2)) :
    s2.utf_8_offset t false = some (r, s2) := by
  by_cases htl : t ≤ s.text.length
  · rw [utf_8_offset_false_in s t h htl] at hcall
    simp only [Option.some.injEq, Prod.mk.injEq] at hcall
    obtain ⟨hr, rfl⟩ := hcall
    rw [utf_8_offset_self _ t false rfl, ← hr]
  · rw [utf_8_offset_false_out s t h (by omega)] at hcall
    simp only [Option.some.injEq, Prod.mk.injEq] at hcall
    obtain ⟨hr, rfl⟩ := hcall
    have hwf2 : StringCursor.Wf
        { text := s.text, utf_8_index := utf8Len s.text, char_index := s.text.length } := by
      refine ⟨le_refl _, ?_⟩
      rw [List.take_length]
    rw [utf_8_offset_false_out _ t hwf2 (by dsimp only; omega), ← hr]

theorem utf_8_offset_idem (s : StringCursor) (t : Nat) (b : Bool) (r : Option Nat)
    (s2 : StringCursor) (h : s.Wf) (hcall : s.utf_8_offset t b = some (r, s2)) :
    s2.utf_8_offset t b = some (r, s2) := by
  cases b with
  | false => exact utf_8_offset_idem_false s t r s2 h hcall
  | true =>
    rcases Nat.lt_trichotomy s.char_index t with hlt | heq | hgt
    · cases hsplit : ((s.text.drop s.char_index).take (t - s.char_index)).dropWhile
          (fun a => !isStopChar a) with
      | nil =>
        have hclean : ∀ a ∈ (s.text.drop s.char_index).take (t - s.char_index),
            isStopChar a = false := by
          intro a ha
          have hsp := List.takeWhile_append_dropWhile (fun a => !isStopChar a)
            ((s.text.drop s.char_index).take (t - s.char_index))
          rw [hsplit, List.append_nil] at hsp
          rw [← hsp] at ha
          simpa using List.mem_takeWhile_imp ha
        rw [utf_8_offset_forward_clean s t h hlt hclean] at hcall
        by_cases htl : t ≤ s.text.length
        · rw [utf_8_offset_false_in s t h htl] at hcall
          simp only [Option.some.injEq, Prod.mk.injEq] at hcall
          obtain ⟨hr, rfl⟩ := hcall
          rw [utf_8_offset_self _ t true rfl, ← hr]
        · rw [utf_8_offset_false_out s t h (by omega)] at hcall
          simp only [Option.some.injEq, Prod.mk.injEq] at hcall
          obtain ⟨hr, rfl⟩ := hcall
          have hwf2 : StringCursor.Wf
              { text := s.text, utf_8_index := utf8Len s.text,
                char_index := s.text.length } := by
            refine ⟨le_refl _, ?_⟩
            rw [List.take_length]
          have hclean2 : ∀ a ∈ (s.text.drop s.text.length).take (t - s.text.length),
              isStopChar a = false := by
            intro a ha
            rw [List.drop_length] at ha
            simp at ha
          rw [utf_8_offset_forward_clean _ t hwf2 (by dsimp only; omega) hclean2,
            utf_8_offset_false_out _ t hwf2 (by dsimp only; omega), ← hr]
      | cons c rest =>
        set P := ((s.text.drop s.char_index).take (t - s.char_index)).takeWhile
          (fun a => !isStopChar a) with hP
        have hspan : (s.text.drop s.char_index).take (t - s.char_index)
            = P ++ c :: rest := by
          conv_lhs => rw [← List.takeWhile_append_dropWhile (fun a => !isStopChar a)
            ((s.text.drop s.char_index).take (t - s.char_index))]
          rw [hsplit, hP]
        have hpre : ∀ a ∈ P, isStopChar a = false := by
          intro a ha
          rw [hP] at ha
          simpa using List.mem_takeWhile_imp ha
        have hc : isStopChar c = true := by
          simpa using dropWhile_head_false _ c rest hsplit
        rw [utf_8_offset_forward_stop s t P c rest h hlt hspan hpre hc] at hcall
        simp only [Option.some.injEq, Prod.mk.injEq] at hcall
        obtain ⟨hr, rfl⟩ := hcall
        obtain ⟨h1, h2, h3, h4⟩ := forward_stop_state s t P c rest h hlt hspan
        have hwf2 : StringCursor.Wf
            { text := s.text, utf_8_index := s.utf_8_index + utf8Len P,
              char_index := s.char_index + P.length } :=
          ⟨by dsimp only; omega, h3⟩
        obtain ⟨k, hk⟩ : ∃ k, t - (s.char_index + P.length) = k + 1 :=
          ⟨t - (s.char_index + P.length) - 1, by omega⟩
        have hspan2 : (s.text.drop (s.char_index + P.length)).take
              (t - (s.char_index + P.length))
            = [] ++ c :: ((rest ++ s.text.drop t).take k) := by
          rw [h4, hk, List.take_succ_cons, List.nil_append]
        rw [utf_8_offset_forward_stop _ t [] c _ hwf2 h1 hspan2 (by simp) hc, ← hr]
        simp [utf8Len_nil]
    · rw [utf_8_offset_self s t true heq] at hcall
      simp only [Option.some.injEq, Prod.mk.injEq] at hcall
      obtain ⟨hr, rfl⟩ := hcall
      rw [utf_8_offset_self s t true heq, ← hr]
    · cases hsplit : ((s.text.take s.char_index).reverse.take
          (s.char_index - t)).dropWhile (fun a => !isStopChar a) with
      | nil =>
        have hclean : ∀ a ∈ (s.text.take s.char_index).reverse.take (s.char_index - t),
            isStopChar a = false := by
          intro a ha
          have hsp := List.takeWhile_append_dropWhile (fun a => !isStopChar a)
            ((s.text.take s.char_index).reverse.take (s.char_index - t))
          rw [hsplit, List.append_nil] at hsp
          rw [← hsp] at ha
          simpa using List.mem_takeWhile_imp ha
        rw [utf_8_offset_backward_clean s t h hgt hclean] at hcall
        have htl : t ≤ s.text.length := by
          have hle := h.1
          omega
        rw [utf_8_offset_false_in s t h htl] at hcall
        simp only [Option.some.injEq, Prod.mk.injEq] at hcall
        obtain ⟨hr, rfl⟩ := hcall
        rw [utf_8_offset_self _ t true rfl, ← hr]
      | cons c rest =>
        set P := ((s.text.take s.char_index).reverse.take
          (s.char_index - t)).takeWhile (fun a => !isStopChar a) with hP
        have hspan : (s.text.take s.char_index).reverse.take (s.char_index - t)
            = P ++ c :: rest := by
          conv_lhs => rw [← List.takeWhile_append_dropWhile (fun a => !isStopChar a)
            ((s.text.take s.char_index).reverse.take (s.char_index - t))]
          rw [hsplit, hP]
        have hpre : ∀ a ∈ P, isStopChar a = false := by
          intro a ha
          rw [hP] at ha
          simpa using List.mem_takeWhile_imp ha
        have hc : isStopChar c = true := by
          simpa using dropWhile_head_false _ c rest hsplit
        rw [utf_8_offset_backward_stop s t P c rest h hgt hspan hpre hc] at hcall
        simp only [Option.some.injEq, Prod.mk.injEq] at hcall
        obtain ⟨hr, rfl⟩ := hcall
        obtain ⟨h1, h2, h3, h4⟩ := backward_stop_state s t P c rest h hgt hspan
        have hle := h.1
        have hwf2 : StringCursor.Wf
            { text := s.text, utf_8_index := s.utf_8_index - utf8Len P,
              char_index := s.char_index - P.length } :=
          ⟨by dsimp only; omega, h2⟩
        obtain ⟨k, hk⟩ : ∃ k, s.char_index - P.length - t = k + 1 :=
          ⟨s.char_index - P.length - t - 1, by omega⟩
        have hspan2 : (s.text.take (s.char_index - P.length)).reverse.take
              (s.char_index - P.length - t)
            = [] ++ c :: ((rest ++ (s.text.take t).reverse).take k) := by
          rw [h4, hk, List.take_succ_cons, List.nil_append]
        rw [utf_8_offset_backward_stop _ t [] c _ hwf2 h1 hspan2 (by simp) hc, ← hr]
        simp [utf8Len_nil]

theorem utf8Len_pos (cs : List Char) (h : cs ≠ []) : 0 < utf8Len cs := by
  cases cs with
  | nil => simp at h
  | cons c cs =>
    rw [utf8Len_cons]
    have := c.utf8Size_pos
    omega

theorem utf8Len_take_strict_mono (cs : List Char) (i j : Nat) (hij : i < j)
    (hj : j ≤ cs.length) : utf8Len (cs.take i) < utf8Len (cs.take j) := by
  have hsplit := utf8Len_take_sub cs j i (le_of_lt hij)
  have hne : (cs.take j).drop i ≠ [] := by
    have hlen : 0 < ((cs.take j).drop i).length := by
      rw [List.length_drop, List.length_take]
      omega
    exact List.ne_nil_of_length_pos hlen
  have := utf8Len_pos _ hne
  omega

theorem sliceBytes_take_to_end (cs : List Char) (k : Nat) (hk : k ≤ cs.length) :
    sliceBytes cs (utf8Len (cs.take k)) (utf8Len cs) = some (cs.drop k) := by
  unfold sliceBytes
  have h1 : takeBytes cs (utf8Len cs) = some cs := by
    have h2 := takeBytes_utf8Len_take cs cs.length (le_refl _)
    rwa [List.take_length] at h2
  rw [h1, Option.some_bind]
  exact dropBytes_utf8Len_take cs k hk

theorem get_position_none (tw : TextWithPosition) (ci : Nat) (b : Bool)
    (c2 : StringCursor) (h : tw.content.Wf)
    (hcall : tw.content.utf_8_offset ci b = some (none, c2)) :
    ∃ p t2, tw.get_position ci b = some (p, t2) ∧ p.utf_8 = utf8Len tw.content.text := by
  obtain ⟨hle, hu⟩ := h
  unfold TextWithPosition.get_position
  rw [hcall]
  simp only [Option.getD_none]
  by_cases hlt : tw.content.utf_8_index < utf8Len tw.content.text
  · rw [if_pos hlt, hu, sliceBytes_take_to_end tw.content.text tw.content.char_index hle]
    exact ⟨_, _, rfl, rfl⟩
  · rw [if_neg hlt, if_neg (by omega)]
    exact ⟨_, _, rfl, rfl⟩

/-! ### Claim theorems -/

/-- Claim C1 (code bug evaluation): the backward replay of `get_position` never
runs.  Seeking forward to character 3 of `"a\nb"` yields line 1, column 1; the
subsequent backward seek to character 0 resolves byte offset 0 but returns
line 1, column 1 unchanged, because the `else if end > start` branch sits in
the `else` of `start < end` and is unreachable, so no `\n` decrements `line`
and no character decrements `column` as the claim requires. -/
theorem C1_backward_replay_unreachable :
    (TextWithPosition.new ['a', '\n', 'b']).get_position 3 false
      = some (Position.mk 3 1 1,
        TextWithPosition.mk 1 1 (StringCursor.mk ['a', '\n', 'b'] 3 3)) ∧
    (TextWithPosition.mk 1 1 (StringCursor.mk ['a', '\n', 'b'] 3 3)).get_position 0 false
      = some (Position.mk 0 1 1,
        TextWithPosition.mk 1 1 (StringCursor.mk ['a', '\n', 'b'] 0 0)) := by
  constructor <;> decide

/-- Claim C2: on a forward seek past a `\n` or `\r` with `stop_at_newline` set,
`utf_8_offset` returns `Some` of the byte offset accumulated just before the
newline and leaves the cached indices at that pre-newline point, strictly
before the requested target. -/
theorem C2_forward_newline_stop (s : StringCursor) (t : Nat) (pre : List Char)
    (c : Char) (rest : List Char) (h : s.Wf) (hlt : s.char_index < t)
    (hspan : (s.text.drop s.char_index).take (t - s.char_index) = pre ++ c :: rest)
    (hpre : ∀ a ∈ pre, isStopChar a = false) (hc : isStopChar c = true) :
    s.utf_8_offset t true = some (some (s.utf_8_index + utf8Len pre),
      { text := s.text, utf_8_index := s.utf_8_index + utf8Len pre,
        char_index := s.char_index + pre.length }) ∧
      s.char_index + pre.length < t :=
  ⟨utf_8_offset_forward_stop s t pre c rest h hlt hspan hpre hc,
    (forward_stop_state s t pre c rest h hlt hspan).1⟩

/-- Witness for C2 on the text `"ab\nc"` seeking to character 4. -/
theorem C2_witness :
    (StringCursor.new ['a', 'b', '\n', 'c']).utf_8_offset 4 true
        = some (some 2, StringCursor.mk ['a', 'b', '\n', 'c'] 2 2) ∧ 2 < 4 :=
  C2_forward_newline_stop (StringCursor.new ['a', 'b', '\n', 'c']) 4
    ['a', 'b'] '\n' ['c'] (by decide) (by decide) (by decide) (by decide) (by decide)

/-- Claim C3: a seek with `stop_at_newline = false` whose target lies beyond the
character count of the text returns `None` and leaves the cursor at the end of
the text, not at the requested target. -/
theorem C3_out_of_range_seek (s : StringCursor) (t : Nat) (h : s.Wf)
    (ht : s.text.length < t) :
    s.utf_8_offset t false = some (none,
      { text := s.text, utf_8_index := utf8Len s.text,
        char_index := s.text.length }) :=
  utf_8_offset_false_out s t h ht

/-- Witness for C3 on the text `"ab"` seeking to character 3. -/
theorem C3_witness :
    (StringCursor.new ['a', 'b']).utf_8_offset 3 false
      = some (none, StringCursor.mk ['a', 'b'] 2 2) :=
  C3_out_of_range_seek (StringCursor.new ['a', 'b']) 3 (by decide) (by decide)

/-- Claim C4: a suggestion whose mapping resolution against the collector's
source is the empty range list contributes no diagnostic: adding it is the same
as not supplying it at all, leaving the other suggestions of the call intact. -/
theorem C4_unmappable_suggestion_dropped (fc : FileCollector) (m : Mapping)
    (s : Suggestion) (xs ys : List Suggestion)
    (h : m.location s fc.source = []) :
    fc.add (xs ++ s :: ys) m = fc.add (xs ++ ys) m := by
  unfold FileCollector.add
  simp only [List.map_append, List.map_cons, List.filter_append, List.filter_cons, h]
  simp [List.isEmpty]

/-- Witness for C4 with the always-empty mapping. -/
theorem C4_witness :
    emptyMapping.location sugExample (FileCollector.new ['x']).source = [] ∧
      (FileCollector.new ['x']).add ([] ++ sugExample :: []) emptyMapping
        = (FileCollector.new ['x']).add ([] ++ []) emptyMapping :=
  ⟨rfl, C4_unmappable_suggestion_dropped (FileCollector.new ['x']) emptyMapping
    sugExample [] [] rfl⟩

/-- Claim C5: `LanguageTool::new` succeeds exactly when one backend selection
shape is supplied — `bundled` alone, `jar_location` alone, or `host` and `port`
together — and the matching build feature is enabled; every other combination
is a configuration error. -/
theorem C5_backend_selection (f : Features) (bundled : Bool)
    (jar host port : Option String) :
    (∃ lt, LanguageTool.new f bundled jar host port = Except.ok lt) ↔
      ((bundled = true ∧ jar = none ∧ host = none ∧ port = none
          ∧ f.bundle_jar = true)
        ∨ (bundled = false ∧ jar.isSome = true ∧ host = none ∧ port = none
            ∧ (f.bundle_jar || f.extern_jar) = true)
        ∨ (bundled = false ∧ jar = none ∧ host.isSome = true ∧ port.isSome = true
            ∧ f.remote_server = true)) := by
  obtain ⟨fb, fe, fr⟩ := f
  cases bundled <;> rcases jar with _ | j <;> rcases host with _ | ho <;>
    rcases port with _ | po <;> cases fb <;> cases fe <;> cases fr <;>
    simp [LanguageTool.new]

/-- Claim C6: cursor boundary invariant.  A fresh cursor is well formed; every
successful `utf_8_offset` call preserves the invariant that `utf_8_index` is
the encoded byte length of the first `char_index` characters and keeps the
text; resolved byte offsets grow strictly with the character index; and on
`"ÖÖ"` the character indices 0, 1, 2 resolve to byte offsets 0, 2, 4 while
index 3 yields no result. -/
theorem C6_cursor_boundary_invariant :
    (∀ cs : List Char, (StringCursor.new cs).Wf) ∧
    (∀ (s : StringCursor) (t : Nat) (b : Bool) (r : Option Nat) (s2 : StringCursor),
      s.Wf → s.utf_8_offset t b = some (r, s2) → s2.Wf ∧ s2.text = s.text) ∧
    (∀ (s : StringCursor) (i j ui uj : Nat) (s1 s2 : StringCursor),
      s.Wf → i < j → s.utf_8_offset i false = some (some ui, s1) →
      s1.utf_8_offset j false = some (some uj, s2) → ui < uj) ∧
    ((StringCursor.new ['Ö', 'Ö']).utf_8_offset 0 false
        = some (some 0, StringCursor.mk ['Ö', 'Ö'] 0 0) ∧
      (StringCursor.mk ['Ö', 'Ö'] 0 0).utf_8_offset 1 false
        = some (some 2, StringCursor.mk ['Ö', 'Ö'] 2 1) ∧
      (StringCursor.mk ['Ö', 'Ö'] 2 1).utf_8_offset 2 false
        = some (some 4, StringCursor.mk ['Ö', 'Ö'] 4 2) ∧
      (StringCursor.mk ['Ö', 'Ö'] 4 2).utf_8_offset 3 false
        = some (none, StringCursor.mk ['Ö', 'Ö'] 4 2)) := by
  refine ⟨fun cs => ⟨Nat.zero_le _, rfl⟩, utf_8_offset_wf, ?_, by decide⟩
  intro s i j ui uj s1 s2 h hij h1 h2
  obtain ⟨hwf1, htext1⟩ := utf_8_offset_wf s i false (some ui) s1 h h1
  by_cases hi : i ≤ s.text.length
  · rw [utf_8_offset_false_in s i h hi] at h1
    simp only [Option.some.injEq, Prod.mk.injEq] at h1
    obtain ⟨hui, rfl⟩ := h1
    by_cases hj : j ≤ s.text.length
    · rw [utf_8_offset_false_in _ j hwf1 hj] at h2
      simp only [Option.some.injEq, Prod.mk.injEq] at h2
      obtain ⟨huj, rfl⟩ := h2
      rw [← hui, ← huj]
      exact utf8Len_take_strict_mono s.text i j hij hj
    · rw [utf_8_offset_false_out _ j hwf1 (by dsimp only; omega)] at h2
      simp at h2
  · rw [utf_8_offset_false_out s i h (by omega)] at h1
    simp at h1

/-- Witness for C6 instantiating the monotonicity component on `"ÖÖ"`. -/
theorem C6_witness :
    (StringCursor.new ['Ö', 'Ö']).Wf ∧ (0 : Nat) < 1 ∧
      (StringCursor.new ['Ö', 'Ö']).utf_8_offset 0 false
        = some (some 0, StringCursor.mk ['Ö', 'Ö'] 0 0) ∧
      (StringCursor.mk ['Ö', 'Ö'] 0 0).utf_8_offset 1 false
        = some (some 2, StringCursor.mk ['Ö', 'Ö'] 2 1) ∧ (0 : Nat) < 2 :=
  ⟨by decide, by decide, by decide, by decide,
    C6_cursor_boundary_invariant.2.2.1 (StringCursor.new ['Ö', 'Ö']) 0 1 0 2
      (StringCursor.mk ['Ö', 'Ö'] 0 0) (StringCursor.mk ['Ö', 'Ö'] 2 1)
      (by decide) (by decide) (by decide) (by decide)⟩

/-- Claim C7: a successful `utf_8_offset` call is idempotent — repeating it
with the same arguments returns the same result and leaves the cursor
unchanged — and when the cached character index already equals the target the
cached byte offset is returned at once with no scan. -/
theorem C7_repeat_seek_idempotent (s : StringCursor) (t : Nat) (b : Bool)
    (r : Option Nat) (s2 : StringCursor) (h : s.Wf)
    (hcall : s.utf_8_offset t b = some (r, s2)) :
    s2.utf_8_offset t b = some (r, s2) ∧
      (s.char_index = t → s.utf_8_offset t b = some (some s.utf_8_index, s)) :=
  ⟨utf_8_offset_idem s t b r s2 h hcall, utf_8_offset_self s t b⟩

/-- Witness for C7 on `"a\nb"` with a newline-stopped forward seek. -/
theorem C7_witness :
    (StringCursor.mk ['a', '\n', 'b'] 1 1).utf_8_offset 5 true
        = some (some 1, StringCursor.mk ['a', '\n', 'b'] 1 1) ∧
      ((StringCursor.new ['a', '\n', 'b']).char_index = 5 →
        (StringCursor.new ['a', '\n', 'b']).utf_8_offset 5 true
          = some (some 0, StringCursor.new ['a', '\n', 'b'])) :=
  C7_repeat_seek_idempotent (StringCursor.new ['a', '\n', 'b']) 5 true
    (some 1) (StringCursor.mk ['a', '\n', 'b'] 1 1) (by decide) (by decide)

/-- Claim C8: when the cursor reports the requested character index out of
range (`utf_8_offset` returns `None`), `get_position` succeeds and the returned
position's byte offset is the byte length of the whole text. -/
theorem C8_get_position_end_default (tw : TextWithPosition) (ci : Nat) (b : Bool)
    (c2 : StringCursor) (h : tw.content.Wf)
    (hcall : tw.content.utf_8_offset ci b = some (none, c2)) :
    ∃ p t2, tw.get_position ci b = some (p, t2)
      ∧ p.utf_8 = utf8Len tw.content.text :=
  get_position_none tw ci b c2 h hcall

/-- Witness for C8 on `"ab"` with the out-of-range character index 5. -/
theorem C8_witness :
    (TextWithPosition.new ['a', 'b']).content.Wf ∧
      (TextWithPosition.new ['a', 'b']).content.utf_8_offset 5 false
        = some (none, StringCursor.mk ['a', 'b'] 2 2) ∧
      ∃ p t2, (TextWithPosition.new ['a', 'b']).get_position 5 false = some (p, t2)
        ∧ p.utf_8 = utf8Len (TextWithPosition.new ['a', 'b']).content.text :=
  ⟨by decide, by decide,
    C8_get_position_end_default (TextWithPosition.new ['a', 'b']) 5 false
      (StringCursor.mk ['a', 'b'] 2 2) (by decide) (by decide)⟩

/-- Claim C9: `finish` returns the source the collector was constructed with;
no sequence of `add` calls mutates it. -/
theorem C9_source_immutable (src : List Char)
    (calls : List (List Suggestion × Mapping)) :
    ((calls.foldl (fun fc p => fc.add p.1 p.2) (FileCollector.new src)).finish).1
      = src := by
  have hgen : ∀ (cs : List (List Suggestion × Mapping)) (fc : FileCollector),
      (cs.foldl (fun fc p => fc.add p.1 p.2) fc).source = fc.source := by
    intro cs
    induction cs with
    | nil => intro fc; rfl
    | cons c cs ih =>
      intro fc
      rw [List.foldl_cons, ih]
      rfl
  exact hgen calls (FileCollector.new src)

/-- Claim C10: a backward seek with `stop_at_newline` set also stops at the
first `\n` or `\r` met while scanning backward, returning the byte offset
cached at that moment, which is strictly greater than the byte offset of the
requested character index. -/
theorem C10_backward_newline_stop (s : StringCursor) (t : Nat) (pre : List Char)
    (c : Char) (rest : List Char) (h : s.Wf) (hgt : t < s.char_index)
    (hspan : (s.text.take s.char_index).reverse.take (s.char_index - t)
      = pre ++ c :: rest)
    (hpre : ∀ a ∈ pre, isStopChar a = false) (hc : isStopChar c = true) :
    s.utf_8_offset t true = some (some (s.utf_8_index - utf8Len pre),
      { text := s.text, utf_8_index := s.utf_8_index - utf8Len pre,
        char_index := s.char_index - pre.length }) ∧
      utf8Len (s.text.take t) < s.utf_8_index - utf8Len pre :=
  ⟨utf_8_offset_backward_stop s t pre c rest h hgt hspan hpre hc,
    (backward_stop_state s t pre c rest h hgt hspan).2.2.1⟩

/-- Witness for C10 on `"a\nb"`, seeking backward from character 3 to 0. -/
theorem C10_witness :
    (StringCursor.mk ['a', '\n', 'b'] 3 3).utf_8_offset 0 true
        = some (some 2, StringCursor.mk ['a', '\n', 'b'] 2 2) ∧
      utf8Len (['a', '\n', 'b'].take 0) < 2 :=
  C10_backward_newline_stop (StringCursor.mk ['a', '\n', 'b'] 3 3) 0
    ['b'] '\n' ['a'] (by decide) (by decide) (by decide) (by decide) (by decide)
